import Mathlib

/-!
Shallow embedding of the rust-tree repository (src/node.rs and src/main.rs).

The Rust program builds an in-memory tree from slash-delimited path strings.
Nodes are pure data (a kind tag, diagnostic data, depth, path, name, and an
owned list of children); the tree holds an optional root.  Mutation is
modelled by returning the updated value; Rust panics (out-of-bounds indexing
and unsigned underflow) are modelled by returning none.
-/

namespace RustTree

/-- The File/Directory tag from node.rs (enum NodeType). -/
inductive NodeType where
  | File : NodeType
  | Directory : NodeType
deriving DecidableEq

/-- Diagnostic payload from node.rs (struct NodeData). -/
structure NodeData where
  default_path : String
  length : Nat
deriving DecidableEq

/-- A tree vertex from node.rs (struct Node): kind, data, depth, path, name,
and an owned, ordered list of children. -/
inductive Node where
  | mk (node_type : NodeType) (data : NodeData) (depth : Nat) (path : String)
      (name : String) (children : List Node) : Node

def Node.node_type : Node → NodeType
  | .mk t _ _ _ _ _ => t

def Node.data : Node → NodeData
  | .mk _ d _ _ _ _ => d

/-- Field access, also the Rust accessor Node::depth. -/
def Node.depth : Node → Nat
  | .mk _ _ dep _ _ _ => dep

/-- Field access, also the Rust accessor Node::path. -/
def Node.path : Node → String
  | .mk _ _ _ p _ _ => p

/-- Field access, also the Rust accessor Node::name. -/
def Node.name : Node → String
  | .mk _ _ _ _ n _ => n

def Node.children : Node → List Node
  | .mk _ _ _ _ _ cs => cs

/-- Replace the children list, keeping every other field. -/
def Node.setChildren : Node → List Node → Node
  | .mk t d dep p n _, cs => .mk t d dep p n cs

/-- Node::new_root from node.rs: a Directory, depth 0, path "/", name "root",
no children. -/
def Node.new_root : Node :=
  .mk .Directory ⟨"/", 1⟩ 0 "/" "root" []

/-- Node::new_file from node.rs. -/
def Node.new_file (data : NodeData) (depth : Nat) (path name : String) : Node :=
  .mk .File data depth path name []

/-- Node::new_directory from node.rs. -/
def Node.new_directory (data : NodeData) (depth : Nat) (path name : String) : Node :=
  .mk .Directory data depth path name []

/-- Splitting on the slash character, Rust str::split("/") semantics:
the empty string yields [""], "a/" yields ["a", ""]. -/
def splitSlashAux : List Char → List Char → List String
  | [], acc => [String.mk acc.reverse]
  | c :: cs, acc =>
    if c = '/' then String.mk acc.reverse :: splitSlashAux cs []
    else splitSlashAux cs (c :: acc)

/-- Rust line.split("/").collect::<Vec<_>>() on a whole string. -/
def splitSlash (s : String) : List String :=
  splitSlashAux s.data []

/-- Rust Vec::join("/"). -/
def joinSlash : List String → String
  | [] => ""
  | [x] => x
  | x :: xs => x ++ "/" ++ joinSlash xs

/-- Rust str::contains(".") for the single-character pattern. -/
def containsDot (s : String) : Bool :=
  s.data.any fun c => c = '.'

/-- Whether the string ends with the slash character (used to state the
spec-side trimming condition). -/
def endsSlash (s : String) : Bool :=
  match s.data.getLast? with
  | some c => c = '/'
  | none => false

/-- Rust "  ".repeat(depth) from Node::display. -/
def indentOf : Nat → String
  | 0 => ""
  | d + 1 => indentOf d ++ "  "

mutual

/-- Node::display from node.rs, modelled as the list of printed lines. -/
def Node.display : Node → List String
  | .mk .File _ dep p n _ =>
    [indentOf dep ++ "File: " ++ n,
     indentOf dep ++ " Path: " ++ p,
     indentOf dep ++ " Depth: " ++ toString dep]
  | .mk .Directory _ dep p n cs =>
    (indentOf dep ++ "Directory: " ++ n)
      :: (indentOf dep ++ " Children: " ++ toString cs.length)
      :: (indentOf dep ++ " Path: " ++ p)
      :: (indentOf dep ++ " Depth: " ++ toString dep)
      :: displayList cs

/-- The for-loop over children inside Node::display. -/
def displayList : List Node → List String
  | [] => []
  | c :: cs => Node.display c ++ displayList cs

end

mutual

/-- Tree::find_by_name_recursive from node.rs: test the node itself, then
scan its children in order, fully searching each child subtree before the
next sibling. -/
def Tree.find_by_name_recursive : Node → String → Option Node
  | .mk t d dep p n cs, name =>
    if n = name then some (.mk t d dep p n cs)
    else findInChildren cs name

/-- The for-loop over children inside Tree::find_by_name_recursive. -/
def findInChildren : List Node → String → Option Node
  | [], _ => none
  | c :: cs, name =>
    match Tree.find_by_name_recursive c name with
    | some r => some r
    | none => findInChildren cs name

end

mutual

/-- Tree::insert_recursive from node.rs.  If the inserted node is a direct
child by depth, append it; otherwise split its path on "/", index the
component at the cursor depth (none models the Rust index-out-of-bounds
panic) and scan the children for the first name match to recurse into.
If no child matches, the node is dropped and the cursor is unchanged. -/
def Tree.insert_recursive : Node → Node → Option Node
  | .mk t d dep p n cs, child =>
    if child.depth = dep + 1 then
      some (.mk t d dep p n (cs ++ [child]))
    else
      let parts := splitSlash child.path
      if h : dep < parts.length then
        match insertInChildren cs (parts.get ⟨dep, h⟩) child with
        | some cs2 => some (.mk t d dep p n cs2)
        | none => none
      else
        none

/-- The for-loop over children inside Tree::insert_recursive: recurse into
the first child whose name equals the searched component, otherwise leave
the list unchanged. -/
def insertInChildren : List Node → String → Node → Option (List Node)
  | [], _, _ => some []
  | c :: cs, toFind, child =>
    if c.name = toFind then
      match Tree.insert_recursive c child with
      | some c2 => some (c2 :: cs)
      | none => none
    else
      match insertInChildren cs toFind child with
      | some cs2 => some (c :: cs2)
      | none => none

end

/-- struct Tree from node.rs: an optional root node. -/
structure Tree where
  root : Option Node

/-- Tree::new from node.rs. -/
def Tree.new : Tree := ⟨none⟩

/-- Tree::insert from node.rs.  With a root present, insert recursively; with
no root, synthesize Node::new_root and retry the same insertion against it. -/
def Tree.insert (t : Tree) (node : Node) : Option Tree :=
  match t.root with
  | some root => (Tree.insert_recursive root node).map fun r => ⟨some r⟩
  | none => (Tree.insert_recursive Node.new_root node).map fun r => ⟨some r⟩

/-- Tree::find_by_name from node.rs. -/
def Tree.find_by_name (t : Tree) (name : String) : Option Node :=
  match t.root with
  | some root => Tree.find_by_name_recursive root name
  | none => none

/-- Tree::find_by_path from node.rs: the body is the constant None. -/
def Tree.find_by_path (_t : Tree) (_path : String) : Option Node :=
  none

/-- Tree::find_by_depth from node.rs: the body is the constant None. -/
def Tree.find_by_depth (_t : Tree) (_depth : Nat) : Option Node :=
  none

/-- Tree::display from node.rs, as the list of printed lines. -/
def Tree.display (t : Tree) : List String :=
  match t.root with
  | some root => root.display
  | none => ["No root node."]

/-- The per-line node construction inside main() of main.rs: split the line
on "/", drop a leading "." component, drop a trailing empty component, then
build a file or directory node from the remaining components.  The two Rust
panic sites (indexing an empty vector, or the unsigned underflow of
depth - 1 when no component remains) are modelled by none. -/
def parseLine (line : String) : Option Node :=
  let split0 := splitSlash line
  let split1 := if split0.head? = some "." then split0.tail else split0
  match split1.getLast? with
  | none => none
  | some last =>
    let split2 := if last = "" then split1.dropLast else split1
    let depth := split2.length
    match split2.getLast? with
    | none => none
    | some name =>
      let path := joinSlash split2
      let data : NodeData := ⟨line, line.length⟩
      if containsDot name then some (Node.new_file data depth path name)
      else some (Node.new_directory data depth path name)

mutual

/-- The pre-order listing of a node and its descendants: the node itself,
then each child subtree in list order. -/
def preorder : Node → List Node
  | .mk t d dep p n cs => .mk t d dep p n cs :: preorderList cs

/-- Pre-order listing of a forest, left to right. -/
def preorderList : List Node → List Node
  | [] => []
  | c :: cs => preorder c ++ preorderList cs

end

mutual

/-- Depth consistency of a subtree: every child depth is the parent depth
plus one, recursively. -/
def nodeDepthOk : Node → Bool
  | .mk _ _ dep _ _ cs => childrenDepthOk dep cs

/-- Depth consistency of a forest under a parent of the given depth. -/
def childrenDepthOk : Nat → List Node → Bool
  | _, [] => true
  | d, c :: cs => (c.depth == d + 1) && nodeDepthOk c && childrenDepthOk d cs

end

/-- Depth consistency of a whole tree: no root, or a depth-0 root whose
subtree is depth consistent. -/
def treeDepthOk (t : Tree) : Bool :=
  match t.root with
  | none => true
  | some r => (r.depth == 0) && nodeDepthOk r

/-- Trees reachable from the empty tree by successful insert calls whose
inserted nodes all satisfy P. -/
inductive ReachableVia (P : Node → Prop) : Tree → Prop where
  | base : ReachableVia P ⟨none⟩
  | step {t : Tree} {n : Node} {t2 : Tree} : ReachableVia P t → P n →
      Tree.insert t n = some t2 → ReachableVia P t2

/-- The shape of driver-constructed nodes relevant to insertion safety:
empty children, positive depth, and a path splitting into exactly depth
components. -/
def wfInsertNode (n : Node) : Prop :=
  n.children = [] ∧ 1 ≤ n.depth ∧ (splitSlash n.path).length = n.depth

end RustTree


namespace RustTree

/-- Tree::insert_recursive only ever rebuilds the cursor with a new children
list: every other field of the cursor is unchanged. -/
theorem insert_recursive_fields :
    ∀ (n c n2 : Node), Tree.insert_recursive n c = some n2 →
      n2.node_type = n.node_type ∧ n2.data = n.data ∧ n2.depth = n.depth
        ∧ n2.path = n.path ∧ n2.name = n.name := by
  intro n c n2 h
  match n with
  | .mk t d dep p nm cs =>
    simp only [Tree.insert_recursive] at h
    split at h
    · cases h
      exact ⟨rfl, rfl, rfl, rfl, rfl⟩
    · split at h
      · split at h
        · cases h
          exact ⟨rfl, rfl, rfl, rfl, rfl⟩
        · cases h
      · cases h

/-- Depth consistency of a concatenated forest splits into the parts. -/
theorem childrenDepthOk_append (d : Nat) (xs ys : List Node) :
    childrenDepthOk d (xs ++ ys) = (childrenDepthOk d xs && childrenDepthOk d ys) := by
  induction xs with
  | nil => simp [childrenDepthOk]
  | cons x xs ih => simp [childrenDepthOk, ih, Bool.and_assoc]

mutual

/-- Inserting a childless node through Tree::insert_recursive preserves depth
consistency of the cursor subtree. -/
theorem insert_recursive_depthOk : ∀ (n c n2 : Node), nodeDepthOk n = true →
    c.children = [] → Tree.insert_recursive n c = some n2 → nodeDepthOk n2 = true := by
  intro n c n2 hok hc h
  match n with
  | .mk t d dep p nm cs =>
    simp only [nodeDepthOk] at hok
    simp only [Tree.insert_recursive] at h
    split at h
    · next hd =>
      cases h
      simp only [nodeDepthOk]
      rw [childrenDepthOk_append]
      have hc1 : childrenDepthOk dep [c] = true := by
        match c, hc with
        | .mk ct cd cdep cp cn _, rfl =>
          have hd2 : cdep = dep + 1 := hd
          simp [childrenDepthOk, nodeDepthOk, Node.depth, hd2]
      rw [hok, hc1]
      rfl
    · split at h
      · split at h
        · next cs2 heq =>
          cases h
          simp only [nodeDepthOk]
          exact insertInChildren_depthOk cs _ c dep cs2 hok hc heq
        · cases h
      · cases h

/-- The children-scan of Tree::insert_recursive preserves depth consistency
of a forest when the inserted node is childless. -/
theorem insertInChildren_depthOk : ∀ (cs : List Node) (f : String) (c : Node)
    (d : Nat) (cs2 : List Node), childrenDepthOk d cs = true → c.children = [] →
    insertInChildren cs f c = some cs2 → childrenDepthOk d cs2 = true := by
  intro cs f c d cs2 hok hc h
  match cs with
  | [] =>
    simp only [insertInChildren] at h
    cases h
    exact hok
  | x :: rest =>
    simp only [childrenDepthOk, Bool.and_assoc, Bool.and_eq_true] at hok
    obtain ⟨hx1, hx2, hrest⟩ := hok
    simp only [insertInChildren] at h
    split at h
    · split at h
      · next x2 hx2eq =>
        cases h
        simp only [childrenDepthOk, Bool.and_assoc, Bool.and_eq_true]
        refine ⟨?_, ?_, hrest⟩
        · rw [(insert_recursive_fields x c x2 hx2eq).2.2.1]
          exact hx1
        · exact insert_recursive_depthOk x c x2 hx2 hc hx2eq
      · cases h
    · split at h
      · next rest2 hreq =>
        cases h
        simp only [childrenDepthOk, Bool.and_assoc, Bool.and_eq_true]
        exact ⟨hx1, hx2, insertInChildren_depthOk rest f c d rest2 hrest hc hreq⟩
      · cases h

end

mutual

/-- On a depth-consistent cursor, inserting a node whose depth exceeds the
cursor depth and whose path has exactly depth components never hits the
out-of-bounds index: Tree::insert_recursive returns a value. -/
theorem insert_recursive_isSome : ∀ (n c : Node), nodeDepthOk n = true →
    n.depth + 1 ≤ c.depth → (splitSlash c.path).length = c.depth →
    ∃ n2, Tree.insert_recursive n c = some n2 := by
  intro n c hok hle hlen
  match n with
  | .mk t d dep p nm cs =>
    replace hle : dep + 1 ≤ c.depth := hle
    simp only [nodeDepthOk] at hok
    simp only [Tree.insert_recursive]
    split
    · exact ⟨_, rfl⟩
    · next hd =>
      have hb : dep < (splitSlash c.path).length := by omega
      rw [dif_pos hb]
      obtain ⟨cs2, h2⟩ :=
        insertInChildren_isSome cs c dep ((splitSlash c.path).get ⟨dep, hb⟩) hok
          (by omega) hlen
      rw [h2]
      exact ⟨_, rfl⟩

/-- The children-scan of Tree::insert_recursive returns a value on a
depth-consistent forest whenever the inserted node is at least two levels
below the parent. -/
theorem insertInChildren_isSome : ∀ (cs : List Node) (c : Node) (d : Nat)
    (f : String), childrenDepthOk d cs = true → d + 2 ≤ c.depth →
    (splitSlash c.path).length = c.depth →
    ∃ cs2, insertInChildren cs f c = some cs2 := by
  intro cs c d f hok h2 hlen
  match cs with
  | [] => exact ⟨[], rfl⟩
  | x :: rest =>
    simp only [childrenDepthOk, Bool.and_assoc, Bool.and_eq_true, beq_iff_eq] at hok
    obtain ⟨hx1, hx2, hrest⟩ := hok
    simp only [insertInChildren]
    split
    · obtain ⟨x2, hx2eq⟩ := insert_recursive_isSome x c hx2 (by rw [hx1]; omega) hlen
      rw [hx2eq]
      exact ⟨_, rfl⟩
    · obtain ⟨rest2, hreq⟩ := insertInChildren_isSome rest c d f hrest h2 hlen
      rw [hreq]
      exact ⟨_, rfl⟩

end

/-- Every tree reachable by inserting childless nodes is depth consistent. -/
theorem reachable_treeDepthOk (P : Node → Prop) (hP : ∀ n, P n → n.children = [])
    (t : Tree) (ht : ReachableVia P t) : treeDepthOk t = true := by
  induction ht with
  | base => rfl
  | @step t0 n t2 _ hn hins ih =>
    cases hroot : t0.root with
    | none =>
      simp only [Tree.insert, hroot] at hins
      obtain ⟨r2, hr2, ht2⟩ := Option.map_eq_some'.mp hins
      cases ht2
      simp only [treeDepthOk, Bool.and_eq_true, beq_iff_eq]
      refine ⟨?_, insert_recursive_depthOk Node.new_root n r2 rfl (hP n hn) hr2⟩
      rw [(insert_recursive_fields _ _ _ hr2).2.2.1]
      rfl
    | some r =>
      simp only [Tree.insert, hroot] at hins
      obtain ⟨r2, hr2, ht2⟩ := Option.map_eq_some'.mp hins
      cases ht2
      simp only [treeDepthOk, hroot, Bool.and_eq_true, beq_iff_eq] at ih
      obtain ⟨ihd, ihok⟩ := ih
      simp only [treeDepthOk, Bool.and_eq_true, beq_iff_eq]
      refine ⟨?_, insert_recursive_depthOk r n r2 ihok (hP n hn) hr2⟩
      rw [(insert_recursive_fields _ _ _ hr2).2.2.1]
      exact ihd


mutual

/-- The name search equals the first pre-order hit. -/
theorem find_eq_preorder (node : Node) (name : String) :
    Tree.find_by_name_recursive node name =
      (preorder node).find? fun n => n.name == name := by
  match node with
  | .mk t d dep p n cs =>
    rw [Tree.find_by_name_recursive, preorder, List.find?]
    by_cases h : n = name
    · simp [h, Node.name]
    · simp only [Node.name, h, if_false]
      have hb : ((Node.mk t d dep p n cs).name == name) = false := by
        simp [Node.name, h]
      simp only [Node.name] at hb
      rw [hb]
      exact findList_eq_preorder cs name

/-- The children scan of the name search equals the first pre-order hit in
the forest listing. -/
theorem findList_eq_preorder (cs : List Node) (name : String) :
    findInChildren cs name = (preorderList cs).find? fun n => n.name == name := by
  match cs with
  | [] => rw [findInChildren, preorderList]; rfl
  | c :: rest =>
    rw [findInChildren, preorderList, List.find?_append]
    rw [find_eq_preorder c name]
    cases (preorder c).find? fun n => n.name == name with
    | some r => simp
    | none => simp [findList_eq_preorder rest name]

end

/-- A scan over children none of whose names match leaves the list
unchanged (the silently dropped insertion). -/
theorem insertInChildren_noMatch (cs : List Node) (f : String) (c : Node)
    (h : ∀ x ∈ cs, x.name ≠ f) : insertInChildren cs f c = some cs := by
  induction cs with
  | nil => rfl
  | cons x rest ih =>
    simp only [insertInChildren]
    rw [if_neg (h x (List.mem_cons_self x rest))]
    rw [ih fun y hy => h y (List.mem_cons_of_mem x hy)]

/-- The scan recurses into exactly the first child whose name matches. -/
theorem insertInChildren_firstMatch (pre : List Node) (mid : Node)
    (post : List Node) (f : String) (c : Node) (hpre : ∀ x ∈ pre, x.name ≠ f)
    (hmid : mid.name = f) :
    insertInChildren (pre ++ mid :: post) f c =
      (Tree.insert_recursive mid c).map fun m => pre ++ m :: post := by
  induction pre with
  | nil =>
    simp only [List.nil_append, insertInChildren]
    rw [if_pos hmid]
    cases Tree.insert_recursive mid c with
    | some m => rfl
    | none => rfl
  | cons x rest ih =>
    simp only [List.cons_append, insertInChildren]
    rw [if_neg (hpre x (List.mem_cons_self x rest))]
    simp only [List.append_eq]
    rw [ih fun y hy => hpre y (List.mem_cons_of_mem x hy)]
    cases Tree.insert_recursive mid c with
    | some m => rfl
    | none => rfl

mutual

/-- Repeating a successful insertion: either the first insertion dropped the
node and left the cursor unchanged, or the second insertion also succeeds
and some node of the result holds two adjacent copies of the inserted node
among its children. -/
theorem insert_twice_node : ∀ (n c n1 : Node), Tree.insert_recursive n c = some n1 →
    n1 = n ∨ ∃ n2, Tree.insert_recursive n1 c = some n2 ∧
      ∃ p ∈ preorder n2, ∃ l r, p.children = l ++ c :: c :: r := by
  intro n c n1 h
  match n with
  | .mk t d dep p nm cs =>
    simp only [Tree.insert_recursive] at h
    split at h
    · next hd =>
      cases h
      right
      refine ⟨Node.mk t d dep p nm ((cs ++ [c]) ++ [c]), ?_, ?_⟩
      · simp only [Tree.insert_recursive]
        rw [if_pos hd]
      · refine ⟨Node.mk t d dep p nm ((cs ++ [c]) ++ [c]),
          by rw [preorder]; exact List.mem_cons_self _ _, cs, [], ?_⟩
        simp [Node.children]
    · next hd =>
      split at h
      · next hb =>
        split at h
        · next cs1 heq =>
          cases h
          rcases insert_twice_list cs _ c cs1 heq with
            hsame | ⟨cs2, h2, p2, hp2, l, r, hdup⟩
          · left
            rw [hsame]
          · right
            refine ⟨Node.mk t d dep p nm cs2, ?_, ?_⟩
            · simp only [Tree.insert_recursive]
              rw [if_neg hd, dif_pos hb, h2]
            · exact ⟨p2, by rw [preorder]; exact List.mem_cons_of_mem _ hp2,
                l, r, hdup⟩
        · cases h
      · cases h

/-- The children-scan version of the repeated-insertion lemma. -/
theorem insert_twice_list : ∀ (cs : List Node) (f : String) (c : Node)
    (cs1 : List Node), insertInChildren cs f c = some cs1 →
    cs1 = cs ∨ ∃ cs2, insertInChildren cs1 f c = some cs2 ∧
      ∃ p ∈ preorderList cs2, ∃ l r, p.children = l ++ c :: c :: r := by
  intro cs f c cs1 h
  match cs with
  | [] =>
    simp only [insertInChildren] at h
    cases h
    left
    rfl
  | x :: rest =>
    simp only [insertInChildren] at h
    split at h
    · next hx =>
      split at h
      · next x2 hx2 =>
        cases h
        rcases insert_twice_node x c x2 hx2 with
          hsame | ⟨x3, hx3, p2, hp2, l, r, hdup⟩
        · left
          rw [hsame]
        · right
          refine ⟨x3 :: rest, ?_, ?_⟩
          · simp only [insertInChildren]
            have hx2name : x2.name = f := by
              rw [(insert_recursive_fields x c x2 hx2).2.2.2.2]
              exact hx
            rw [if_pos hx2name, hx3]
          · exact ⟨p2, by rw [preorderList]; exact List.mem_append_left _ hp2,
              l, r, hdup⟩
      · cases h
    · next hx =>
      split at h
      · next rest1 hr =>
        cases h
        rcases insert_twice_list rest f c rest1 hr with
          hsame | ⟨rest2, h2, p2, hp2, l, r, hdup⟩
        · left
          rw [hsame]
        · right
          refine ⟨x :: rest2, ?_, ?_⟩
          · simp only [insertInChildren]
            rw [if_neg hx, h2]
          · exact ⟨p2, by rw [preorderList]; exact List.mem_append_right _ hp2,
              l, r, hdup⟩
      · cases h

end


/-- Splitting never produces an empty component list. -/
theorem splitSlashAux_ne_nil (cs acc : List Char) : splitSlashAux cs acc ≠ [] := by
  induction cs generalizing acc with
  | nil => simp [splitSlashAux]
  | cons c cs ih =>
    simp only [splitSlashAux]
    split
    · simp
    · exact ih (c :: acc)

/-- Dropping the head of a list keeps the last element when something
remains. -/
theorem getLast?_cons_of_ne {α : Type} (a : α) (l : List α) (h : l ≠ []) :
    (a :: l).getLast? = l.getLast? := by
  cases l with
  | nil => exact absurd rfl h
  | cons b m => exact List.getLast?_cons_cons

/-- The last split component is empty exactly when the character list ends
in a slash, or the whole input and accumulator are empty. -/
theorem splitSlashAux_last_empty (cs acc : List Char) :
    ((splitSlashAux cs acc).getLast? = some "") ↔
      (cs.getLast? = some '/' ∨ (cs = [] ∧ acc = [])) := by
  induction cs generalizing acc with
  | nil =>
    constructor
    · intro h
      right
      refine ⟨rfl, ?_⟩
      have h1 : some (String.mk acc.reverse) = some "" := h
      have h2 : acc.reverse = ([] : List Char) := congrArg String.data (Option.some.inj h1)
      have h3 := congrArg List.reverse h2
      simpa using h3
    · rintro (h | ⟨-, rfl⟩)
      · simp at h
      · rfl
  | cons c cs ih =>
    simp only [splitSlashAux]
    by_cases hc : c = '/'
    · rw [if_pos hc]
      rw [getLast?_cons_of_ne _ _ (splitSlashAux_ne_nil cs [])]
      rw [ih []]
      cases cs with
      | nil => subst hc; simp
      | cons d ds => subst hc; simp [List.getLast?_cons_cons]
    · rw [if_neg hc]
      rw [ih (c :: acc)]
      cases cs with
      | nil => simp [Ne.symm hc, hc]
      | cons d ds => simp [List.getLast?_cons_cons]

/-- The Bool test endsSlash agrees with the last character being a slash. -/
theorem endsSlash_iff (s : String) :
    endsSlash s = true ↔ s.data.getLast? = some '/' := by
  rw [endsSlash]
  cases h : s.data.getLast? with
  | none => simp
  | some c => simp

/-- A string is empty exactly when its character list is. -/
theorem string_eq_empty_iff (s : String) : s = "" ↔ s.data = [] := by
  constructor
  · rintro rfl
    rfl
  · intro h
    cases s
    simp at h
    rw [h]

/-- The last component of a full split is empty exactly when the string ends
with a slash or is empty. -/
theorem splitSlash_last_empty (s : String) :
    ((splitSlash s).getLast? = some "") ↔ (endsSlash s = true ∨ s = "") := by
  rw [splitSlash, splitSlashAux_last_empty]
  constructor
  · rintro (h | ⟨h, -⟩)
    · exact Or.inl ((endsSlash_iff s).mpr h)
    · exact Or.inr ((string_eq_empty_iff s).mpr h)
  · rintro (h | h)
    · exact Or.inl ((endsSlash_iff s).mp h)
    · exact Or.inr ⟨(string_eq_empty_iff s).mp h, rfl⟩

/-- Following the words of the spec (section 6): the component list after
trimming a single leading "." component exactly when the first component is
".", and a single trailing empty component exactly when the string ends
with "/".  This is the spec-side counterpart of the trimming done inside
parseLine, which instead tests whether the last component is empty. -/
def specTrimmedComponents (line : String) : List String :=
  let split0 := splitSlash line
  let split1 := if split0.head? = some "." then split0.tail else split0
  if endsSlash line then split1.dropLast else split1


/-- Whenever parseLine succeeds, the component list it used is exactly the
spec-side trimmed component list, the node name is its last entry, and the
node is the corresponding file or directory. -/
theorem parseLine_shape (line : String) (n : Node) (h : parseLine line = some n) :
    ∃ s2 name, s2 = specTrimmedComponents line ∧ s2.getLast? = some name ∧
      n = (if containsDot name
           then Node.new_file ⟨line, line.length⟩ s2.length (joinSlash s2) name
           else Node.new_directory ⟨line, line.length⟩ s2.length (joinSlash s2) name) := by
  simp only [parseLine] at h
  by_cases hdot : (splitSlash line).head? = some "."
  · rw [if_pos hdot] at h
    split at h
    · simp at h
    · next last heq =>
      by_cases hemp : last = ""
      · rw [if_pos hemp] at h
        split at h
        · simp at h
        · next name heq2 =>
          refine ⟨(splitSlash line).tail.dropLast, name, ?_, heq2, ?_⟩
          · have htne : (splitSlash line).tail ≠ [] := by
              intro he
              rw [he] at heq
              simp at heq
            have hES : endsSlash line = true := by
              cases hsp : splitSlash line with
              | nil => exact absurd (by rw [splitSlash] at hsp; exact hsp) (splitSlashAux_ne_nil _ _)
              | cons hd tl =>
                rw [hsp] at htne heq
                simp only [List.tail_cons] at htne heq
                have hlast0 : (splitSlash line).getLast? = some "" := by
                  rw [hsp, getLast?_cons_of_ne _ _ htne, heq, hemp]
                rcases (splitSlash_last_empty line).mp hlast0 with hE | hE
                · exact hE
                · subst hE
                  have : splitSlash "" = [""] := rfl
                  rw [this] at hsp
                  cases hsp
                  exact absurd rfl htne
            simp only [specTrimmedComponents]
            rw [if_pos hdot, if_pos hES]
          · rw [← apply_ite some] at h
            exact (Option.some.inj h).symm
      · rw [if_neg hemp] at h
        split at h
        · simp at h
        · next name heq2 =>
          refine ⟨(splitSlash line).tail, name, ?_, heq2, ?_⟩
          · have htne : (splitSlash line).tail ≠ [] := by
              intro he
              rw [he] at heq
              simp at heq
            have hES : endsSlash line = false := by
              by_contra hE
              replace hE : endsSlash line = true := by
                cases hval : endsSlash line
                · exact absurd hval hE
                · rfl
              have hlast0 : (splitSlash line).getLast? = some "" :=
                (splitSlash_last_empty line).mpr (Or.inl hE)
              cases hsp : splitSlash line with
              | nil => exact absurd (by rw [splitSlash] at hsp; exact hsp) (splitSlashAux_ne_nil _ _)
              | cons hd tl =>
                rw [hsp] at htne heq hlast0
                simp only [List.tail_cons] at htne heq
                rw [getLast?_cons_of_ne _ _ htne, heq] at hlast0
                exact hemp (Option.some.inj hlast0)
            simp only [specTrimmedComponents]
            rw [if_pos hdot, if_neg (by rw [hES]; exact Bool.false_ne_true)]
          · rw [← apply_ite some] at h
            exact (Option.some.inj h).symm
  · rw [if_neg hdot] at h
    split at h
    · simp at h
    · next last heq =>
      by_cases hemp : last = ""
      · rw [if_pos hemp] at h
        split at h
        · simp at h
        · next name heq2 =>
          refine ⟨(splitSlash line).dropLast, name, ?_, heq2, ?_⟩
          · have hlast0 : (splitSlash line).getLast? = some "" := by
              rw [heq, hemp]
            have hES : endsSlash line = true := by
              rcases (splitSlash_last_empty line).mp hlast0 with hE | hE
              · exact hE
              · subst hE
                have hsp : splitSlash "" = [""] := rfl
                rw [hsp] at heq2
                simp at heq2
            simp only [specTrimmedComponents]
            rw [if_neg hdot, if_pos hES]
          · rw [← apply_ite some] at h
            exact (Option.some.inj h).symm
      · rw [if_neg hemp] at h
        split at h
        · simp at h
        · next name heq2 =>
          refine ⟨splitSlash line, name, ?_, heq2, ?_⟩
          · have hES : endsSlash line = false := by
              by_contra hE
              replace hE : endsSlash line = true := by
                cases hval : endsSlash line
                · exact absurd hval hE
                · rfl
              have hlast0 : (splitSlash line).getLast? = some "" :=
                (splitSlash_last_empty line).mpr (Or.inl hE)
              rw [heq] at hlast0
              exact hemp (Option.some.inj hlast0)
            simp only [specTrimmedComponents]
            rw [if_neg hdot, if_neg (by rw [hES]; exact Bool.false_ne_true)]
          · rw [← apply_ite some] at h
            exact (Option.some.inj h).symm

/-- Field-level description of a successfully parsed node, phrased over the
spec-side trimmed component list. -/
theorem parseLine_fields (line : String) (n : Node) (h : parseLine line = some n) :
    n.depth = (specTrimmedComponents line).length
      ∧ n.path = joinSlash (specTrimmedComponents line)
      ∧ (specTrimmedComponents line).getLast? = some n.name
      ∧ (n.node_type = NodeType.File ↔ containsDot n.name = true)
      ∧ n.children = [] := by
  obtain ⟨s2, name, hs2, hlast, hn⟩ := parseLine_shape line n h
  subst hs2
  rcases hcd : containsDot name with _ | _
  · rw [hcd] at hn
    rw [if_neg Bool.false_ne_true] at hn
    subst hn
    refine ⟨rfl, rfl, ?_, ?_, rfl⟩
    · exact hlast
    · simp [Node.new_directory, Node.node_type, Node.name, hcd]
  · rw [hcd] at hn
    rw [if_pos rfl] at hn
    subst hn
    refine ⟨rfl, rfl, ?_, ?_, rfl⟩
    · exact hlast
    · simp [Node.new_file, Node.node_type, Node.name, hcd]


/-- C1: whenever the recursive descent reaches a cursor with
node.depth = cursor.depth + 1, Tree::insert_recursive appends the node at
the end of the cursor children list and terminates with no other
modification. -/
theorem C1_insert_direct_child (cursor child : Node)
    (h : child.depth = cursor.depth + 1) :
    Tree.insert_recursive cursor child =
      some (cursor.setChildren (cursor.children ++ [child])) := by
  match cursor with
  | .mk t d dep p nm cs =>
    have h2 : child.depth = dep + 1 := h
    simp only [Tree.insert_recursive, Node.setChildren, Node.children]
    rw [if_pos h2]

/-- Witness for C1 at a concrete root and child. -/
theorem C1_witness :
    Tree.insert_recursive Node.new_root (Node.mk .Directory ⟨"a", 1⟩ 1 "a" "a" []) =
      some (Node.new_root.setChildren (Node.new_root.children
        ++ [Node.mk .Directory ⟨"a", 1⟩ 1 "a" "a" []])) :=
  C1_insert_direct_child Node.new_root (Node.mk .Directory ⟨"a", 1⟩ 1 "a" "a" [])
    (by decide)

/-- C2: when the inserted node depth is not cursor depth + 1 and the path
component at index cursor.depth exists, the scan takes the first child
whose name equals that component as the new cursor, and when no child
matches the cursor is returned unchanged: nothing is added and no error is
signalled. -/
theorem C2_descend_or_drop (cursor child : Node)
    (hne : child.depth ≠ cursor.depth + 1)
    (hb : cursor.depth < (splitSlash child.path).length) :
    ((∀ x ∈ cursor.children,
        x.name ≠ (splitSlash child.path).get ⟨cursor.depth, hb⟩) →
      Tree.insert_recursive cursor child = some cursor)
    ∧ (∀ pre mid post,
        cursor.children = pre ++ mid :: post →
        (∀ x ∈ pre, x.name ≠ (splitSlash child.path).get ⟨cursor.depth, hb⟩) →
        mid.name = (splitSlash child.path).get ⟨cursor.depth, hb⟩ →
        Tree.insert_recursive cursor child =
          (Tree.insert_recursive mid child).map
            fun m => cursor.setChildren (pre ++ m :: post)) := by
  match cursor with
  | .mk t d dep p nm cs =>
    have hne2 : ¬(child.depth = dep + 1) := hne
    have hb2 : dep < (splitSlash child.path).length := hb
    simp only [Node.depth, Node.children, Node.setChildren]
    constructor
    · intro hnom
      simp only [Tree.insert_recursive]
      rw [if_neg hne2, dif_pos hb2]
      rw [insertInChildren_noMatch cs _ child hnom]
    · intro pre mid post hsplit hpre hmid
      subst hsplit
      simp only [Tree.insert_recursive]
      rw [if_neg hne2, dif_pos hb2]
      rw [insertInChildren_firstMatch pre mid post _ child hpre hmid]
      cases Tree.insert_recursive mid child with
      | some m => rfl
      | none => rfl

/-- Witness for C2: one drop instance and one first-match descent
instance, both at concrete inputs. -/
theorem C2_witness :
    (Tree.insert_recursive
        (Node.mk .Directory ⟨"/", 1⟩ 0 "/" "root"
          [Node.mk .Directory ⟨"a", 1⟩ 1 "a" "a" []])
        (Node.mk .File ⟨"x/y.txt", 7⟩ 2 "x/y.txt" "y.txt" []) =
      some (Node.mk .Directory ⟨"/", 1⟩ 0 "/" "root"
          [Node.mk .Directory ⟨"a", 1⟩ 1 "a" "a" []]))
    ∧ (Tree.insert_recursive
        (Node.mk .Directory ⟨"/", 1⟩ 0 "/" "root"
          [Node.mk .Directory ⟨"a", 1⟩ 1 "a" "a" []])
        (Node.mk .File ⟨"a/y.txt", 7⟩ 2 "a/y.txt" "y.txt" []) =
      (Tree.insert_recursive (Node.mk .Directory ⟨"a", 1⟩ 1 "a" "a" [])
          (Node.mk .File ⟨"a/y.txt", 7⟩ 2 "a/y.txt" "y.txt" [])).map
        fun m => (Node.mk .Directory ⟨"/", 1⟩ 0 "/" "root"
          [Node.mk .Directory ⟨"a", 1⟩ 1 "a" "a" []]).setChildren ([] ++ m :: [])) := by
  constructor
  · exact (C2_descend_or_drop
      (Node.mk .Directory ⟨"/", 1⟩ 0 "/" "root"
        [Node.mk .Directory ⟨"a", 1⟩ 1 "a" "a" []])
      (Node.mk .File ⟨"x/y.txt", 7⟩ 2 "x/y.txt" "y.txt" [])
      (by decide) (by decide)).1 (by decide)
  · exact (C2_descend_or_drop
      (Node.mk .Directory ⟨"/", 1⟩ 0 "/" "root"
        [Node.mk .Directory ⟨"a", 1⟩ 1 "a" "a" []])
      (Node.mk .File ⟨"a/y.txt", 7⟩ 2 "a/y.txt" "y.txt" [])
      (by decide) (by decide)).2
      [] (Node.mk .Directory ⟨"a", 1⟩ 1 "a" "a" []) [] rfl (by decide) (by decide)

/-- C3: find_by_name returns the first pre-order match of the name (a node
before its descendants, a full child subtree before the next sibling), and
none on the empty tree or when no node name matches. -/
theorem C3_find_by_name_preorder :
    (∀ name, Tree.find_by_name ⟨none⟩ name = none)
    ∧ (∀ r name, Tree.find_by_name ⟨some r⟩ name =
        (preorder r).find? fun x => x.name == name)
    ∧ (∀ r name, (∀ x ∈ preorder r, x.name ≠ name) →
        Tree.find_by_name ⟨some r⟩ name = none) := by
  refine ⟨fun name => rfl, fun r name => find_eq_preorder r name,
    fun r name hno => ?_⟩
  show Tree.find_by_name_recursive r name = none
  rw [find_eq_preorder]
  apply List.find?_eq_none.mpr
  intro x hx
  simpa using hno x hx

/-- Witness for C3 at a concrete tree with no matching name. -/
theorem C3_witness :
    Tree.find_by_name ⟨some (Node.mk .Directory ⟨"/", 1⟩ 0 "/" "root"
      [Node.mk .File ⟨"a.txt", 5⟩ 1 "a.txt" "a.txt" []])⟩ "zzz" = none :=
  C3_find_by_name_preorder.2.2
    (Node.mk .Directory ⟨"/", 1⟩ 0 "/" "root"
      [Node.mk .File ⟨"a.txt", 5⟩ 1 "a.txt" "a.txt" []]) "zzz" (by decide)

/-- C4: inserting into a rootless tree is the same as inserting against the
synthesized root; the synthesized root is a Directory of depth 0, name
"root", path "/", no children; and on every reachable tree the root keeps
exactly those identifying fields, so it is never a File. -/
theorem C4_root_synthesis :
    (∀ node, Tree.insert ⟨none⟩ node = Tree.insert ⟨some Node.new_root⟩ node)
    ∧ (Node.new_root.node_type = NodeType.Directory ∧ Node.new_root.depth = 0
        ∧ Node.new_root.name = "root" ∧ Node.new_root.path = "/"
        ∧ Node.new_root.children = [])
    ∧ (∀ t, ReachableVia (fun _ => True) t → ∀ r, t.root = some r →
        r.node_type = NodeType.Directory ∧ r.depth = 0 ∧ r.name = "root"
          ∧ r.path = "/") := by
  refine ⟨fun node => rfl, ⟨rfl, rfl, rfl, rfl, rfl⟩, ?_⟩
  intro t ht
  induction ht with
  | base =>
    intro r hr
    simp at hr
  | @step t0 n t2 ht0 hn hins ih =>
    intro r hr
    cases hroot0 : t0.root with
    | none =>
      simp only [Tree.insert, hroot0] at hins
      obtain ⟨r2, hr2, ht2⟩ := Option.map_eq_some'.mp hins
      cases ht2
      replace hr : some r2 = some r := hr
      cases hr
      have hf := insert_recursive_fields _ _ _ hr2
      exact ⟨hf.1.trans rfl, hf.2.2.1.trans rfl, hf.2.2.2.2.trans rfl,
        hf.2.2.2.1.trans rfl⟩
    | some r0 =>
      simp only [Tree.insert, hroot0] at hins
      obtain ⟨r2, hr2, ht2⟩ := Option.map_eq_some'.mp hins
      cases ht2
      replace hr : some r2 = some r := hr
      cases hr
      obtain ⟨h1, h2, h3, h4⟩ := ih r0 hroot0
      have hf := insert_recursive_fields _ _ _ hr2
      exact ⟨hf.1.trans h1, hf.2.2.1.trans h2, hf.2.2.2.2.trans h3,
        hf.2.2.2.1.trans h4⟩

/-- Witness for C4 on a concrete reachable tree. -/
theorem C4_witness :
    (Node.mk .Directory ⟨"/", 1⟩ 0 "/" "root"
        [Node.mk .Directory ⟨"a", 1⟩ 1 "a" "a" []]).node_type = NodeType.Directory
      ∧ (Node.mk .Directory ⟨"/", 1⟩ 0 "/" "root"
        [Node.mk .Directory ⟨"a", 1⟩ 1 "a" "a" []]).depth = 0
      ∧ (Node.mk .Directory ⟨"/", 1⟩ 0 "/" "root"
        [Node.mk .Directory ⟨"a", 1⟩ 1 "a" "a" []]).name = "root"
      ∧ (Node.mk .Directory ⟨"/", 1⟩ 0 "/" "root"
        [Node.mk .Directory ⟨"a", 1⟩ 1 "a" "a" []]).path = "/" :=
  C4_root_synthesis.2.2
    ⟨some (Node.mk .Directory ⟨"/", 1⟩ 0 "/" "root"
      [Node.mk .Directory ⟨"a", 1⟩ 1 "a" "a" []])⟩
    (@ReachableVia.step (fun _ => True) ⟨none⟩
      (Node.mk .Directory ⟨"a", 1⟩ 1 "a" "a" [])
      ⟨some (Node.mk .Directory ⟨"/", 1⟩ 0 "/" "root"
        [Node.mk .Directory ⟨"a", 1⟩ 1 "a" "a" []])⟩
      ReachableVia.base trivial rfl)
    (Node.mk .Directory ⟨"/", 1⟩ 0 "/" "root"
      [Node.mk .Directory ⟨"a", 1⟩ 1 "a" "a" []]) rfl

/-- C5: every tree reachable from the empty tree by inserting childless
nodes is depth consistent: the root has depth 0+ every child depth is its
parent depth plus one (display and find_by_name are read-only in this
embedding and cannot affect it). -/
theorem C5_depth_invariant (t : Tree)
    (ht : ReachableVia (fun n => n.children = []) t) : treeDepthOk t = true :=
  reachable_treeDepthOk _ (fun _ hn => hn) t ht

/-- Witness for C5 on a concrete reachable tree. -/
theorem C5_witness :
    treeDepthOk ⟨some (Node.mk .Directory ⟨"/", 1⟩ 0 "/" "root"
      [Node.mk .Directory ⟨"a", 1⟩ 1 "a" "a" []])⟩ = true :=
  C5_depth_invariant _
    (@ReachableVia.step (fun n => n.children = []) ⟨none⟩
      (Node.mk .Directory ⟨"a", 1⟩ 1 "a" "a" [])
      ⟨some (Node.mk .Directory ⟨"/", 1⟩ 0 "/" "root"
        [Node.mk .Directory ⟨"a", 1⟩ 1 "a" "a" []])⟩
      ReachableVia.base rfl rfl)

/-- C6 counterexample: for the input line a//b the constructed depth is 3,
the count of all components (the empty middle one included), while the
count of the non-empty components is 2; the path likewise keeps the empty
component. -/
theorem C6_counterexample :
    (parseLine "a//b").map Node.depth = some 3
    ∧ ((splitSlash "a//b").filter fun s => !(s == "")).length = 2
    ∧ (parseLine "a//b").map Node.path = some "a//b"
    ∧ joinSlash ((splitSlash "a//b").filter fun s => !(s == "")) = "a/b" :=
  ⟨rfl, rfl, rfl, rfl⟩

/-- C6 amended: on every line from which the driver constructs a node, the
node depth is the count of all components remaining after trimming one
leading "." component exactly when the first component is "." and one
trailing empty component exactly when the line ends with "/", path is
their "/"-join, name is the last of them, and the kind is File exactly
when the name holds a "." character; the input a/ yields depth 1, name a,
Directory. -/
theorem C6_construction :
    (∀ line n, parseLine line = some n →
      n.depth = (specTrimmedComponents line).length
        ∧ n.path = joinSlash (specTrimmedComponents line)
        ∧ (specTrimmedComponents line).getLast? = some n.name
        ∧ (n.node_type = NodeType.File ↔ containsDot n.name = true)
        ∧ n.children = [])
    ∧ parseLine "a/" = some (Node.mk NodeType.Directory ⟨"a/", 2⟩ 1 "a" "a" []) :=
  ⟨parseLine_fields, rfl⟩

/-- Witness for C6 at the concrete line src/main.rs. -/
theorem C6_witness :
    (Node.mk NodeType.File ⟨"src/main.rs", 11⟩ 2 "src/main.rs" "main.rs" []).depth
        = (specTrimmedComponents "src/main.rs").length
      ∧ (Node.mk NodeType.File ⟨"src/main.rs", 11⟩ 2 "src/main.rs" "main.rs" []).path
        = joinSlash (specTrimmedComponents "src/main.rs")
      ∧ (specTrimmedComponents "src/main.rs").getLast?
        = some (Node.mk NodeType.File ⟨"src/main.rs", 11⟩ 2 "src/main.rs" "main.rs" []).name
      ∧ ((Node.mk NodeType.File ⟨"src/main.rs", 11⟩ 2 "src/main.rs" "main.rs" []).node_type
          = NodeType.File
        ↔ containsDot
            (Node.mk NodeType.File ⟨"src/main.rs", 11⟩ 2 "src/main.rs" "main.rs" []).name
          = true)
      ∧ (Node.mk NodeType.File ⟨"src/main.rs", 11⟩ 2 "src/main.rs" "main.rs" []).children
        = [] :=
  C6_construction.1 "src/main.rs"
    (Node.mk NodeType.File ⟨"src/main.rs", 11⟩ 2 "src/main.rs" "main.rs" []) rfl

/-- C7: the malformed inputs are not rejected with an explicit error
outcome: the construction panics (modelled by none) on the empty line, on
"." and on "./", and the line "/" silently yields a directory node with an
empty name instead of an error. -/
theorem C7_malformed_inputs :
    parseLine "" = none ∧ parseLine "." = none ∧ parseLine "./" = none
      ∧ parseLine "/" = some (Node.mk NodeType.Directory ⟨"/", 1⟩ 1 "" "" []) :=
  ⟨rfl, rfl, rfl, rfl⟩

/-- C8: insertion is not idempotent: when an insertion attaches its node
(the root subtree changed), repeating the same insertion succeeds and
leaves some node holding two adjacent equal children, both copies of the
inserted node. -/
theorem C8_no_dedup (root c root1 : Node)
    (h : Tree.insert_recursive root c = some root1) (hne : root1 ≠ root) :
    ∃ root2, Tree.insert_recursive root1 c = some root2 ∧
      ∃ p ∈ preorder root2, ∃ l r, p.children = l ++ c :: c :: r := by
  rcases insert_twice_node root c root1 h with hsame | hdup
  · exact absurd hsame hne
  · exact hdup

/-- Witness for C8 at a concrete tree and path. -/
theorem C8_witness :
    ∃ root2, Tree.insert_recursive
        (Node.mk .Directory ⟨"/", 1⟩ 0 "/" "root"
          [Node.mk .Directory ⟨"a", 1⟩ 1 "a" "a"
            [Node.mk .File ⟨"a/b.txt", 7⟩ 2 "a/b.txt" "b.txt" []]])
        (Node.mk .File ⟨"a/b.txt", 7⟩ 2 "a/b.txt" "b.txt" []) = some root2 ∧
      ∃ p ∈ preorder root2, ∃ l r,
        p.children = l ++ (Node.mk .File ⟨"a/b.txt", 7⟩ 2 "a/b.txt" "b.txt" [])
          :: (Node.mk .File ⟨"a/b.txt", 7⟩ 2 "a/b.txt" "b.txt" []) :: r :=
  C8_no_dedup
    (Node.mk .Directory ⟨"/", 1⟩ 0 "/" "root"
      [Node.mk .Directory ⟨"a", 1⟩ 1 "a" "a" []])
    (Node.mk .File ⟨"a/b.txt", 7⟩ 2 "a/b.txt" "b.txt" [])
    (Node.mk .Directory ⟨"/", 1⟩ 0 "/" "root"
      [Node.mk .Directory ⟨"a", 1⟩ 1 "a" "a"
        [Node.mk .File ⟨"a/b.txt", 7⟩ 2 "a/b.txt" "b.txt" []]])
    rfl
    (fun hEq => absurd (congrArg (fun x => (preorder x).length) hEq) (by decide))

/-- C9: find_by_path and find_by_depth return none regardless of input. -/
theorem C9_stub_lookups (t : Tree) (path : String) (depth : Nat) :
    Tree.find_by_path t path = none ∧ Tree.find_by_depth t depth = none :=
  ⟨rfl, rfl⟩

/-- C10 counterexample: both inserted nodes have positive depth and a path
splitting into exactly depth components, yet the second insertion hits the
out-of-bounds index (none), because the first node carried a pre-populated
child with an inconsistent depth. -/
theorem C10_counterexample :
    (1 ≤ (Node.mk .Directory ⟨"a", 1⟩ 1 "a" "a"
          [Node.mk .Directory ⟨"b", 1⟩ 7 "b" "b" []]).depth
      ∧ (splitSlash (Node.mk .Directory ⟨"a", 1⟩ 1 "a" "a"
          [Node.mk .Directory ⟨"b", 1⟩ 7 "b" "b" []]).path).length
        = (Node.mk .Directory ⟨"a", 1⟩ 1 "a" "a"
          [Node.mk .Directory ⟨"b", 1⟩ 7 "b" "b" []]).depth)
    ∧ (1 ≤ (Node.mk .File ⟨"a/b/c.txt", 9⟩ 3 "a/b/c.txt" "c.txt" []).depth
      ∧ (splitSlash (Node.mk .File ⟨"a/b/c.txt", 9⟩ 3 "a/b/c.txt" "c.txt" []).path).length
        = (Node.mk .File ⟨"a/b/c.txt", 9⟩ 3 "a/b/c.txt" "c.txt" []).depth)
    ∧ Tree.insert ⟨none⟩ (Node.mk .Directory ⟨"a", 1⟩ 1 "a" "a"
        [Node.mk .Directory ⟨"b", 1⟩ 7 "b" "b" []])
      = some ⟨some (Node.mk .Directory ⟨"/", 1⟩ 0 "/" "root"
        [Node.mk .Directory ⟨"a", 1⟩ 1 "a" "a"
          [Node.mk .Directory ⟨"b", 1⟩ 7 "b" "b" []]])⟩
    ∧ Tree.insert ⟨some (Node.mk .Directory ⟨"/", 1⟩ 0 "/" "root"
        [Node.mk .Directory ⟨"a", 1⟩ 1 "a" "a"
          [Node.mk .Directory ⟨"b", 1⟩ 7 "b" "b" []]])⟩
        (Node.mk .File ⟨"a/b/c.txt", 9⟩ 3 "a/b/c.txt" "c.txt" []) = none :=
  ⟨⟨by decide, rfl⟩, ⟨by decide, rfl⟩, rfl, rfl⟩

/-- C10 amended: on every tree built by inserting nodes with empty children
lists, positive depth and a path splitting into exactly depth components,
inserting another such node never hits the out-of-bounds index: insert
returns a tree. -/
theorem C10_no_oob (t : Tree) (ht : ReachableVia wfInsertNode t)
    (c : Node) (hc : wfInsertNode c) : ∃ t2, Tree.insert t c = some t2 := by
  have hok := reachable_treeDepthOk wfInsertNode (fun n hn => hn.1) t ht
  obtain ⟨hcnil, hdep, hlen⟩ := hc
  cases hroot : t.root with
  | none =>
    simp only [Tree.insert, hroot]
    obtain ⟨r2, hr2⟩ := insert_recursive_isSome Node.new_root c rfl hdep hlen
    rw [hr2]
    exact ⟨_, rfl⟩
  | some r =>
    simp only [Tree.insert, hroot]
    simp only [treeDepthOk, hroot, Bool.and_eq_true, beq_iff_eq] at hok
    obtain ⟨h0, hok2⟩ := hok
    obtain ⟨r2, hr2⟩ := insert_recursive_isSome r c hok2 (by rw [h0]; exact hdep) hlen
    rw [hr2]
    exact ⟨_, rfl⟩

/-- Witness for C10 on a concrete reachable tree and node. -/
theorem C10_witness :
    ∃ t2, Tree.insert ⟨some (Node.mk .Directory ⟨"/", 1⟩ 0 "/" "root"
        [Node.mk .Directory ⟨"a", 1⟩ 1 "a" "a" []])⟩
      (Node.mk .File ⟨"a/b.txt", 7⟩ 2 "a/b.txt" "b.txt" []) = some t2 :=
  C10_no_oob
    ⟨some (Node.mk .Directory ⟨"/", 1⟩ 0 "/" "root"
      [Node.mk .Directory ⟨"a", 1⟩ 1 "a" "a" []])⟩
    (@ReachableVia.step wfInsertNode ⟨none⟩
      (Node.mk .Directory ⟨"a", 1⟩ 1 "a" "a" [])
      ⟨some (Node.mk .Directory ⟨"/", 1⟩ 0 "/" "root"
        [Node.mk .Directory ⟨"a", 1⟩ 1 "a" "a" []])⟩
      ReachableVia.base ⟨rfl, by decide, rfl⟩ rfl)
    (Node.mk .File ⟨"a/b.txt", 7⟩ 2 "a/b.txt" "b.txt" [])
    ⟨rfl, by decide, rfl⟩

end RustTree
